import Mathlib

/-!
Shallow embedding of the variational autoencoder notebook
(`VariationalAutoencoders.ipynb`): the `VariationalAutoEncoder` module
(`encode`, `decode`, `forward`), the loss computation inside `train`, and
the conditional-generation function `inference`.

Vectors are `List ℝ`; a batch is a `List (List ℝ)`.  `nn.Linear` is an
affine map given by a weight matrix (list of rows) and a bias vector.
Randomness (`torch.randn_like`) is passed in explicitly as a noise vector,
so stochastic functions become deterministic functions of their noise
argument.
-/

namespace VAE

/-- Elementwise rectifier, `F.relu` / `nn.ReLU`. -/
noncomputable def relu (x : ℝ) : ℝ := max x 0

/-- Logistic function, `torch.sigmoid`. -/
noncomputable def sigmoid (x : ℝ) : ℝ := 1 / (1 + Real.exp (-x))

/-- Dot product of two vectors. -/
noncomputable def dot (xs ys : List ℝ) : ℝ := (List.zipWith (· * ·) xs ys).sum

/-- Matrix–vector product; the matrix is a list of rows. -/
noncomputable def matVec (w : List (List ℝ)) (x : List ℝ) : List ℝ :=
  w.map (fun row => dot row x)

/-- Affine map `x ↦ W x + b`, the semantics of one `nn.Linear` layer. -/
noncomputable def affine (w : List (List ℝ)) (b x : List ℝ) : List ℝ :=
  List.zipWith (· + ·) (matVec w x) b

/-- Parameters of `VariationalAutoEncoder`: the five `nn.Linear` layers
declared in `__init__`, each a (weight, bias) pair. -/
structure VAEParams where
  img_2hid_w : List (List ℝ)
  img_2hid_b : List ℝ
  hid_2mu_w : List (List ℝ)
  hid_2mu_b : List ℝ
  hid_2sigma_w : List (List ℝ)
  hid_2sigma_b : List ℝ
  z_2hid_w : List (List ℝ)
  z_2hid_b : List ℝ
  hid_2img_w : List (List ℝ)
  hid_2img_b : List ℝ

/-- `VariationalAutoEncoder.encode`:
`h = relu(img_2hid(x)); mu = hid_2mu(h); sigma = hid_2sigma(h)`. -/
noncomputable def encode (p : VAEParams) (x : List ℝ) : List ℝ × List ℝ :=
  let h := (affine p.img_2hid_w p.img_2hid_b x).map relu
  (affine p.hid_2mu_w p.hid_2mu_b h, affine p.hid_2sigma_w p.hid_2sigma_b h)

/-- `VariationalAutoEncoder.decode`:
`h = relu(z_2hid(z)); return sigmoid(hid_2img(h))`. -/
noncomputable def decode (p : VAEParams) (z : List ℝ) : List ℝ :=
  let h := (affine p.z_2hid_w p.z_2hid_b z).map relu
  (affine p.hid_2img_w p.hid_2img_b h).map sigmoid

/-- The reparametrization step of `VariationalAutoEncoder.forward`:
`z_reparametrized = mu + sigma * epsilon`, elementwise on vectors. -/
noncomputable def reparam (mu sigma eps : List ℝ) : List ℝ :=
  List.zipWith (· + ·) mu (List.zipWith (· * ·) sigma eps)

/-- `VariationalAutoEncoder.forward`, with the standard-normal draw
`epsilon` passed explicitly: returns `(x_reconstructed, mu, sigma)`. -/
noncomputable def forward (p : VAEParams) (x eps : List ℝ) : List ℝ × List ℝ × List ℝ :=
  let ms := encode p x
  let z := reparam ms.1 ms.2 eps
  (decode p z, ms.1, ms.2)

/-- One row of the KL summand in `train`:
the sum over latent dimensions of `1 + log(sigma^2) - mu^2 - sigma^2`
for one sample of the batch. -/
noncomputable def klRow (mu sigma : List ℝ) : ℝ :=
  (List.zipWith (fun m s => 1 + Real.log (s ^ 2) - m ^ 2 - s ^ 2) mu sigma).sum

/-- The `kl_div` computed in `train`:
`-torch.sum(1 + torch.log(sigma.pow(2)) - mu.pow(2) - sigma.pow(2))`,
where `mu` and `sigma` are the batch matrices of means and spreads. -/
noncomputable def kl_div (mus sigmas : List (List ℝ)) : ℝ :=
  -((List.zipWith klRow mus sigmas).sum)

/-- The spec's reading of the divergence term: minus the sum over all
samples and all latent dimensions of `1 + log(spread^2) - mean^2 - spread^2`,
written as an indexed double sum. -/
noncomputable def kl_spec (mus sigmas : List (List ℝ)) : ℝ :=
  -(∑ j ∈ Finset.range mus.length, ∑ i ∈ Finset.range ((mus.getD j []).length),
      (1 + Real.log (((sigmas.getD j []).getD i 0) ^ 2)
        - ((mus.getD j []).getD i 0) ^ 2 - ((sigmas.getD j []).getD i 0) ^ 2))

/-- The composite loss line of `train`:
`loss = alpha * reconstruction_loss + (1 - alpha) * kl_div`. -/
noncomputable def compositeLoss (alpha reconstruction_loss kl : ℝ) : ℝ :=
  alpha * reconstruction_loss + (1 - alpha) * kl

/-- Guarded logarithm modelling the floating-point domain of `torch.log`:
defined (finite) only on strictly positive arguments; `log 0 = -inf` and
`log` of a negative number is NaN, both modelled as `none`. -/
noncomputable def safeLog (x : ℝ) : Option ℝ :=
  if 0 < x then some (Real.log x) else none

/-- `klRow` with the log guarded: `none` when some `log(sigma^2)` in the
row is undefined. -/
noncomputable def rowKLOpt : List ℝ → List ℝ → Option ℝ
  | m :: ms, s :: ss => do
      let l ← safeLog (s ^ 2)
      let r ← rowKLOpt ms ss
      pure (1 + l - m ^ 2 - s ^ 2 + r)
  | _, _ => some 0

/-- Batch sum of `rowKLOpt`. -/
noncomputable def batchKLOpt : List (List ℝ) → List (List ℝ) → Option ℝ
  | mu :: mt, s :: st => do
      let a ← rowKLOpt mu s
      let b ← batchKLOpt mt st
      pure (a + b)
  | _, _ => some 0

/-- The `kl_div` of `train` with its floating-point definedness made
explicit: `none` exactly when some `log(sigma^2)` is undefined. -/
noncomputable def klDivOpt (mus sigmas : List (List ℝ)) : Option ℝ :=
  (batchKLOpt mus sigmas).map (fun t => -t)

/-- The exemplar-collection loop of `inference`:
`idx = 0; for x, y in dataset: if y == idx: images.append(x); idx += 1;
if idx == len_labels: break`.  `α` is the image type; `acc` holds the
images collected so far and `idx` is their number. -/
def collectGo {α : Type} : List (α × Nat) → Nat → Nat → List α → List α
  | [], _, _, acc => acc
  | (x, y) :: rest, idx, lenLabels, acc =>
    if y = idx then
      if idx + 1 = lenLabels then acc ++ [x]
      else collectGo rest (idx + 1) lenLabels (acc ++ [x])
    else
      if idx = lenLabels then acc
      else collectGo rest idx lenLabels acc

/-- The `images` list built by `inference` from the dataset stream. -/
def collectImages {α : Type} (dataset : List (α × Nat)) (lenLabels : Nat) :
    List α :=
  collectGo dataset 0 lenLabels []

/-- First stream element with the given label, together with the rest of
the stream after it.  Auxiliary for the declarative description of the
collection loop. -/
def firstSplit {α : Type} : List (α × Nat) → Nat → Option (α × List (α × Nat))
  | [], _ => none
  | (x, y) :: rest, k => if y = k then some (x, rest) else firstSplit rest k

/-- Declarative description of the collection loop: collect `n` exemplars
with labels `k, k+1, ...`, each one the first element with that label
occurring after the previously retained element; stop early (returning a
short list) when some label cannot be found. -/
def specCollect {α : Type} : List (α × Nat) → Nat → Nat → List α
  | _, _, 0 => []
  | stream, k, n + 1 =>
    match firstSplit stream k with
    | none => []
    | some (x, rest) => x :: specCollect rest (k + 1) n

/-- The only failure the `inference` code can raise: a list indexed out of
range (Python `IndexError`), from `images[d]` or `encodings_digit[label]`. -/
inductive InfFailure where
  | indexError
  deriving DecidableEq

/-- The body of one iteration of `inference`'s outer `for label in labels`
loop: rebuild `images` from the stream, encode `images[d]` for
`d in range(len_labels)` (an out-of-range index raises), select
`encodings_digit[label]` (ditto), then decode `n_examples` fresh samples
`mu + sigma * epsilon`.  `enc`/`dec` are the model's `encode`/`decode`;
`noise` gives the `randn_like` draw of each example. -/
noncomputable def inferLabel {α : Type} (enc : α → List ℝ × List ℝ) (dec : List ℝ → α)
    (lenLabels : Nat) (dataset : List (α × Nat)) (noise : Nat → List ℝ)
    (label nExamples : Nat) : Except InfFailure (List (Nat × Nat × α)) :=
  let images := collectImages dataset lenLabels
  match (List.range lenLabels).mapM (fun d => images[d]?) with
  | none => .error .indexError
  | some used =>
    let encodings := used.map enc
    match encodings[label]? with
    | none => .error .indexError
    | some ms =>
      .ok ((List.range nExamples).map
        (fun ex => (label, ex, dec (reparam ms.1 ms.2 (noise ex)))))

/-- The outer loop of `inference`: iterate `inferLabel` over the requested
labels, appending each label's emitted images to the output sink `acc`; a
raised failure aborts the loop but images already emitted persist. -/
noncomputable def inferenceGo {α : Type} (enc : α → List ℝ × List ℝ) (dec : List ℝ → α)
    (lenLabels : Nat) (dataset : List (α × Nat))
    (noise : Nat → Nat → List ℝ) (nExamples : Nat) :
    List Nat → List (Nat × Nat × α) → List (Nat × Nat × α) × Option InfFailure
  | [], acc => (acc, none)
  | label :: rest, acc =>
    match inferLabel enc dec lenLabels dataset (noise label) label nExamples with
    | .error e => (acc, some e)
    | .ok outs => inferenceGo enc dec lenLabels dataset noise nExamples rest (acc ++ outs)

/-- The `inference` function: given the model's encode/decode, the
requested labels, the dataset stream, the noise source and the example
count, returns the images written to the sink (tagged `(label, example)`
as in the `label_{label}_{example}.png` filenames) together with the
failure that aborted the run, if any. -/
noncomputable def inference {α : Type} (enc : α → List ℝ × List ℝ) (dec : List ℝ → α)
    (labels : List Nat) (dataset : List (α × Nat))
    (noise : Nat → Nat → List ℝ) (nExamples : Nat) :
    List (Nat × Nat × α) × Option InfFailure :=
  inferenceGo enc dec labels.length dataset noise nExamples labels []

/-- `inference` applied to an actual `VariationalAutoEncoder` model, as the
notebook calls it. -/
noncomputable def inferenceVAE (p : VAEParams) (labels : List Nat)
    (dataset : List (List ℝ × Nat)) (noise : Nat → Nat → List ℝ)
    (nExamples : Nat) : List (Nat × Nat × List ℝ) × Option InfFailure :=
  inference (encode p) (decode p) labels dataset noise nExamples

/-! Helper lemmas about the exemplar-collection scan. -/

lemma specCollect_cons_of_ne {α : Type} (x : α) (y : Nat)
    (rest : List (α × Nat)) (k n : Nat) (h : y ≠ k) :
    specCollect ((x, y) :: rest) k (n + 1) = specCollect rest k (n + 1) := by
  simp only [specCollect, firstSplit, if_neg h]

lemma collectGo_eq_spec {α : Type} :
    ∀ (stream : List (α × Nat)) (idx len : Nat) (acc : List α), idx < len →
      collectGo stream idx len acc = acc ++ specCollect stream idx (len - idx) := by
  intro stream
  induction stream with
  | nil =>
      intro idx len acc h
      obtain ⟨m, hm⟩ : ∃ m, len - idx = m + 1 := ⟨len - idx - 1, by omega⟩
      simp [collectGo, hm, specCollect, firstSplit]
  | cons p rest ih =>
      obtain ⟨x, y⟩ := p
      intro idx len acc h
      obtain ⟨m, hm⟩ : ∃ m, len - idx = m + 1 := ⟨len - idx - 1, by omega⟩
      by_cases hy : y = idx
      · subst hy
        by_cases hlast : y + 1 = len
        · have hm0 : m = 0 := by omega
          subst hm0
          simp [collectGo, hlast, hm, specCollect, firstSplit]
        · have hlt : y + 1 < len := by omega
          have hrec := ih (y + 1) len (acc ++ [x]) hlt
          have hm' : len - (y + 1) = m := by omega
          rw [hm'] at hrec
          simp [collectGo, hlast, hm, specCollect, firstSplit, hrec]
      · have hne : idx ≠ len := by omega
        have hrec := ih idx len acc h
        rw [hm] at hrec
        simp only [collectGo, if_neg hy, if_neg hne, hm,
          specCollect_cons_of_ne x y rest idx m hy]
        exact hrec

lemma firstSplit_eq_none {α : Type} :
    ∀ (stream : List (α × Nat)) (k : Nat), firstSplit stream k = none →
      k ∉ stream.map Prod.snd := by
  intro stream
  induction stream with
  | nil => intro k _ h; simp at h
  | cons p rest ih =>
      obtain ⟨x, y⟩ := p
      intro k hf hmem
      by_cases hy : y = k
      · simp [firstSplit, hy] at hf
      · simp only [firstSplit, if_neg hy] at hf
        rcases (by simpa using hmem : k = y ∨ k ∈ rest.map Prod.snd) with h1 | h2
        · exact hy h1.symm
        · exact ih k hf h2

lemma firstSplit_some_sublist {α : Type} :
    ∀ (stream : List (α × Nat)) (k : Nat) (x : α) (rest : List (α × Nat))
      (l : List Nat), firstSplit stream k = some (x, rest) →
      ((k :: l).Sublist (stream.map Prod.snd) ↔ l.Sublist (rest.map Prod.snd)) := by
  intro stream
  induction stream with
  | nil => intro k x rest l h; simp [firstSplit] at h
  | cons p s ih =>
      obtain ⟨a, b⟩ := p
      intro k x rest l h
      by_cases hb : b = k
      · subst hb
        have h' : a = x ∧ s = rest := by simpa [firstSplit] using h
        obtain ⟨rfl, rfl⟩ := h'
        simp only [List.map_cons]
        exact List.cons_sublist_cons
      · simp only [firstSplit, if_neg hb] at h
        have hiff := ih k x rest l h
        rw [List.map_cons]
        constructor
        · intro hs
          cases hs with
          | cons _ h2 => exact hiff.mp h2
          | cons₂ _ h2 => exact absurd rfl hb
        · intro hs
          exact (hiff.mpr hs).cons b

lemma specCollect_length_le {α : Type} :
    ∀ (n : Nat) (stream : List (α × Nat)) (k : Nat),
      (specCollect stream k n).length ≤ n := by
  intro n
  induction n with
  | zero => intro stream k; simp [specCollect]
  | succ n ih =>
      intro stream k
      cases hf : firstSplit stream k with
      | none => simp [specCollect, hf]
      | some pr =>
          obtain ⟨x, rest⟩ := pr
          simp only [specCollect, hf, List.length_cons]
          exact Nat.succ_le_succ (ih rest (k + 1))

lemma specCollect_full_iff {α : Type} :
    ∀ (n : Nat) (stream : List (α × Nat)) (k : Nat),
      n ≤ (specCollect stream k n).length ↔
        (List.range' k n).Sublist (stream.map Prod.snd) := by
  intro n
  induction n with
  | zero => intro stream k; simp [specCollect, List.nil_sublist]
  | succ n ih =>
      intro stream k
      rw [List.range'_succ]
      cases hf : firstSplit stream k with
      | none =>
          have hk := firstSplit_eq_none stream k hf
          simp only [specCollect, hf, List.length_nil]
          constructor
          · intro hle; omega
          · intro hs
            exact absurd (hs.subset (List.mem_cons_self k _)) hk
      | some pr =>
          obtain ⟨x, rest⟩ := pr
          simp only [specCollect, hf, List.length_cons]
          rw [Nat.succ_le_succ_iff, ih rest (k + 1)]
          exact (firstSplit_some_sublist stream k x rest _ hf).symm

/-- C7 (amended): for a nonempty requested label list, the exemplar scan
retains, for `k = 0, 1, ..., len(labels) - 1` in order, the first stream
element labeled `k` occurring after the element retained for `k - 1`
(`specCollect`), and it retains at most `len(labels)` exemplars. -/
theorem c7_scan_order {α : Type} (stream : List (α × Nat)) (len : Nat)
    (h : 0 < len) :
    collectImages stream len = specCollect stream 0 len ∧
      (collectImages stream len).length ≤ len := by
  have he := collectGo_eq_spec stream 0 len [] h
  simp only [Nat.sub_zero, List.nil_append] at he
  rw [collectImages, he]
  exact ⟨rfl, specCollect_length_le len stream 0⟩

/-- C7 witness: the amended statement evaluated on a concrete stream. -/
theorem c7_scan_order_witness :
    0 < 2 ∧
      (collectImages [((10 : Nat), (1 : Nat)), (20, 0), (30, 1)] 2 =
          specCollect [((10 : Nat), (1 : Nat)), (20, 0), (30, 1)] 0 2 ∧
        (collectImages [((10 : Nat), (1 : Nat)), (20, 0), (30, 1)] 2).length ≤ 2) :=
  ⟨by decide, c7_scan_order [((10 : Nat), (1 : Nat)), (20, 0), (30, 1)] 2 (by decide)⟩

/-- C7 counterexample: on the stream `[(10, label 1), (20, label 0),
(30, label 1)]` with two requested labels, the scan retains `[20, 30]`:
the first occurrence of the distinct label 1 (the element 10, seen first
in stream order) is NOT retained, so the scan does not collect the first
occurrence of each distinct label seen. -/
theorem c7_counterexample :
    collectImages [((10 : Nat), (1 : Nat)), (20, 0), (30, 1)] 2 = [20, 30] ∧
      (10 : Nat) ∉ collectImages [((10 : Nat), (1 : Nat)), (20, 0), (30, 1)] 2 := by
  decide

/-- C10: an element is retained iff its label equals the number already
collected, hence (i) the scan collects `len` exemplars iff the stream
contains elements labeled `0, ..., len-1` at strictly increasing positions
in that order (a sublist `[0, ..., len-1]` of the label stream), and
(ii) for nonempty label lists the retained exemplar for `k` is the first
element labeled `k` after the retained exemplar for `k - 1`. -/
theorem c10_collection_characterization {α : Type}
    (stream : List (α × Nat)) (len : Nat) :
    (len ≤ (collectImages stream len).length ↔
        (List.range len).Sublist (stream.map Prod.snd)) ∧
      (0 < len → collectImages stream len = specCollect stream 0 len) := by
  have hspec : 0 < len → collectImages stream len = specCollect stream 0 len := by
    intro hpos
    have he := collectGo_eq_spec stream 0 len [] hpos
    simp only [Nat.sub_zero, List.nil_append] at he
    rw [collectImages, he]
  refine ⟨?_, hspec⟩
  cases Nat.eq_zero_or_pos len with
  | inl h0 => subst h0; simp [List.nil_sublist]
  | inr hpos =>
      rw [hspec hpos, List.range_eq_range']
      exact specCollect_full_iff len stream 0

/-- C10 witness: the characterization evaluated on a concrete stream. -/
theorem c10_collection_characterization_witness :
    0 < 2 ∧
      collectImages [((7 : Nat), (0 : Nat)), (8, 1)] 2 =
        specCollect [((7 : Nat), (0 : Nat)), (8, 1)] 0 2 :=
  ⟨by decide,
    (c10_collection_characterization [((7 : Nat), (0 : Nat)), (8, 1)] 2).2 (by decide)⟩

/-! Helper lemmas about `inference`. -/

lemma inferLabel_ok {α : Type} {enc : α → List ℝ × List ℝ} {dec : List ℝ → α}
    {len : Nat} {ds : List (α × Nat)} {noise : Nat → List ℝ} {label n : Nat}
    {outs : List (Nat × Nat × α)}
    (h : inferLabel enc dec len ds noise label n = .ok outs) :
    outs.length = n ∧ ∀ t ∈ outs, t.1 = label := by
  simp only [inferLabel] at h
  cases hm : (List.range len).mapM (fun d => (collectImages ds len)[d]?) with
  | none => rw [hm] at h; exact absurd h (by simp)
  | some used =>
      rw [hm] at h
      dsimp only at h
      cases he : (used.map enc)[label]? with
      | none => rw [he] at h; simp at h
      | some ms =>
          rw [he] at h
          simp only [Except.ok.injEq] at h
          subst h
          refine ⟨by simp, ?_⟩
          intro t ht
          simp only [List.mem_map, List.mem_range] at ht
          obtain ⟨ex, _, rfl⟩ := ht
          rfl

lemma inferenceGo_acc {α : Type} (enc : α → List ℝ × List ℝ)
    (dec : List ℝ → α) (len : Nat) (ds : List (α × Nat))
    (noise : Nat → Nat → List ℝ) (n : Nat) :
    ∀ (rest : List Nat) (acc : List (Nat × Nat × α)),
      inferenceGo enc dec len ds noise n rest acc =
        (acc ++ (inferenceGo enc dec len ds noise n rest []).1,
          (inferenceGo enc dec len ds noise n rest []).2) := by
  intro rest
  induction rest with
  | nil => intro acc; simp [inferenceGo]
  | cons l rest ih =>
      intro acc
      cases h : inferLabel enc dec len ds (noise l) l n with
      | error e => simp [inferenceGo, h]
      | ok outs =>
          simp only [inferenceGo, h, List.nil_append]
          rw [ih (acc ++ outs), ih outs]
          simp [List.append_assoc]

lemma inferenceGo_spec {α : Type} (enc : α → List ℝ × List ℝ)
    (dec : List ℝ → α) (len : Nat) (ds : List (α × Nat))
    (noise : Nat → Nat → List ℝ) (n : Nat) :
    ∀ (rest : List Nat),
      (inferenceGo enc dec len ds noise n rest []).2 = none →
      (inferenceGo enc dec len ds noise n rest []).1.length = rest.length * n ∧
        ∀ t ∈ (inferenceGo enc dec len ds noise n rest []).1, t.1 ∈ rest := by
  intro rest
  induction rest with
  | nil => intro _; simp [inferenceGo]
  | cons l rest ih =>
      intro hok
      cases h : inferLabel enc dec len ds (noise l) l n with
      | error e =>
          rw [show inferenceGo enc dec len ds noise n (l :: rest) [] =
              ([], some e) from by simp [inferenceGo, h]] at hok
          simp at hok
      | ok outs =>
          have hgo : inferenceGo enc dec len ds noise n (l :: rest) [] =
              (outs ++ (inferenceGo enc dec len ds noise n rest []).1,
                (inferenceGo enc dec len ds noise n rest []).2) := by
            simp only [inferenceGo, h, List.nil_append]
            exact inferenceGo_acc enc dec len ds noise n rest outs
          rw [hgo] at hok ⊢
          obtain ⟨hlen, htags⟩ := ih hok
          obtain ⟨holen, hotag⟩ := inferLabel_ok h
          constructor
          · simp only [List.length_append, hlen, holen, List.length_cons]
            ring
          · intro t ht
            rcases List.mem_append.mp ht with h1 | h2
            · exact (hotag t h1) ▸ List.mem_cons_self l rest
            · exact List.mem_cons_of_mem l (htags t h2)

lemma inferenceGo_count {α : Type} (enc : α → List ℝ × List ℝ)
    (dec : List ℝ → α) (len : Nat) (ds : List (α × Nat))
    (noise : Nat → Nat → List ℝ) (n : Nat) :
    ∀ (rest : List Nat), rest.Nodup →
      (inferenceGo enc dec len ds noise n rest []).2 = none →
      ∀ L ∈ rest,
        ((inferenceGo enc dec len ds noise n rest []).1.filter
          (fun t => t.1 == L)).length = n := by
  intro rest
  induction rest with
  | nil => intro _ _ L hL; simp at hL
  | cons l rest ih =>
      intro hnd hok L hL
      obtain ⟨hlnotin, hndrest⟩ := List.nodup_cons.mp hnd
      cases h : inferLabel enc dec len ds (noise l) l n with
      | error e =>
          rw [show inferenceGo enc dec len ds noise n (l :: rest) [] =
              ([], some e) from by simp [inferenceGo, h]] at hok
          simp at hok
      | ok outs =>
          have hgo : inferenceGo enc dec len ds noise n (l :: rest) [] =
              (outs ++ (inferenceGo enc dec len ds noise n rest []).1,
                (inferenceGo enc dec len ds noise n rest []).2) := by
            simp only [inferenceGo, h, List.nil_append]
            exact inferenceGo_acc enc dec len ds noise n rest outs
          rw [hgo] at hok ⊢
          obtain ⟨holen, hotag⟩ := inferLabel_ok h
          have htags := (inferenceGo_spec enc dec len ds noise n rest hok).2
          rw [List.filter_append, List.length_append]
          rcases List.mem_cons.mp hL with rfl | hLrest
          · have h1 : outs.filter (fun t => t.1 == L) = outs :=
              List.filter_eq_self.mpr (fun t ht => by
                simp [hotag t ht])
            have h2 : ((inferenceGo enc dec len ds noise n rest []).1.filter
                (fun t => t.1 == L)) = [] := by
              refine List.filter_eq_nil_iff.mpr (fun t ht => ?_)
              have : t.1 ∈ rest := htags t ht
              simp only [beq_iff_eq]
              intro hEq
              exact hlnotin (hEq ▸ this)
            rw [h1, h2, holen]
            simp
          · have hLne : L ≠ l := fun hEq => hlnotin (hEq ▸ hLrest)
            have h1 : outs.filter (fun t => t.1 == L) = [] := by
              refine List.filter_eq_nil_iff.mpr (fun t ht => ?_)
              simp only [beq_iff_eq, hotag t ht]
              exact fun hEq => hLne hEq.symm
            rw [h1]
            simpa using ih hndrest hok L hLrest

/-- C9: on a successful run (no failure raised), `inference` emits exactly
`len(labels) * n_examples` images, and for each requested label exactly
`n_examples` of them carry that label tag. -/
theorem c9_emission_count {α : Type} (enc : α → List ℝ × List ℝ)
    (dec : List ℝ → α) (labels : List Nat) (dataset : List (α × Nat))
    (noise : Nat → Nat → List ℝ) (nExamples : Nat)
    (hnd : labels.Nodup)
    (hok : (inference enc dec labels dataset noise nExamples).2 = none) :
    (inference enc dec labels dataset noise nExamples).1.length =
        labels.length * nExamples ∧
      ∀ L ∈ labels,
        ((inference enc dec labels dataset noise nExamples).1.filter
          (fun t => t.1 == L)).length = nExamples := by
  rw [inference] at hok ⊢
  exact ⟨(inferenceGo_spec enc dec labels.length dataset noise nExamples
      labels hok).1,
    inferenceGo_count enc dec labels.length dataset noise nExamples
      labels hnd hok⟩

/-- Trivial instantiations used to evaluate `inference` concretely: images
are natural numbers, the model maps everything to empty latent vectors. -/
def trivEnc : Nat → List ℝ × List ℝ := fun _ => ([], [])

/-- Trivial decoder for concrete evaluation. -/
noncomputable def trivDec : List ℝ → Nat := fun _ => 7

/-- Trivial noise source (empty standard-normal draw). -/
def trivNoise : Nat → Nat → List ℝ := fun _ _ => []

/-- C9 witness: scenario B — `labels = [0, 1]`, `n_examples = 3`, a stream
holding one exemplar of each label: 6 images are emitted, 3 per label. -/
theorem c9_emission_count_witness :
    [0, 1].Nodup ∧
      (inference trivEnc trivDec [0, 1] [(5, 0), (6, 1)] trivNoise 3).2 = none ∧
      ((inference trivEnc trivDec [0, 1] [(5, 0), (6, 1)] trivNoise 3).1.length =
          [0, 1].length * 3 ∧
        ∀ L ∈ [0, 1],
          ((inference trivEnc trivDec [0, 1] [(5, 0), (6, 1)] trivNoise 3).1.filter
            (fun t => t.1 == L)).length = 3) :=
  ⟨by decide, by rfl,
    c9_emission_count trivEnc trivDec [0, 1] [(5, 0), (6, 1)] trivNoise 3
      (by decide) (by rfl)⟩

/-- C8: code behavior at the failing input.  With requested labels
`[0, 1]` and a stream containing only a label-0 element, `inference`
aborts with the IndexError raised by the out-of-range `images[d]` access
(no dedicated insufficient-exemplar error exists in the code), emitting
nothing. -/
theorem c8_index_error_at_failing_input :
    inference trivEnc trivDec [0, 1] [(5, 0)] trivNoise 1 =
      ([], some InfFailure.indexError) := by
  rfl

/-! Helper lemmas for the loss claims. -/

lemma sum_zipWith_getD {α β : Type} (f : α → β → ℝ) (d1 : α) (d2 : β) :
    ∀ (xs : List α) (ys : List β), ys.length = xs.length →
      (List.zipWith f xs ys).sum =
        ∑ i ∈ Finset.range xs.length, f (xs.getD i d1) (ys.getD i d2) := by
  intro xs
  induction xs with
  | nil => intro ys h; simp
  | cons x xt ih =>
      intro ys h
      cases ys with
      | nil => simp at h
      | cons y yt =>
          simp only [List.zipWith_cons_cons, List.sum_cons, List.length_cons]
          rw [Finset.sum_range_succ']
          simp only [List.getD_cons_succ, List.getD_cons_zero]
          rw [ih yt (by simpa using h)]
          ring

/-- C1: on any batch of mean and spread vectors of matching shapes, the
`kl_div` of the training loop equals minus the double sum, over all
samples and all latent dimensions, of `1 + log(spread^2) - mean^2 -
spread^2`, with no extra factor such as 1/2. -/
theorem c1_kl_closed_form (mus sigmas : List (List ℝ))
    (hlen : sigmas.length = mus.length)
    (hrow : ∀ j, (sigmas.getD j []).length = (mus.getD j []).length) :
    kl_div mus sigmas = kl_spec mus sigmas := by
  rw [kl_div, kl_spec, neg_inj]
  rw [sum_zipWith_getD klRow [] [] mus sigmas hlen]
  refine Finset.sum_congr rfl (fun j _ => ?_)
  rw [klRow, sum_zipWith_getD _ 0 0 (mus.getD j []) (sigmas.getD j []) (hrow j)]

/-- C1 witness: the identity evaluated on a concrete one-sample batch. -/
theorem c1_kl_closed_form_witness :
    ([[(1 : ℝ)]] : List (List ℝ)).length = ([[(0 : ℝ)]] : List (List ℝ)).length ∧
      (∀ j, (([[(1 : ℝ)]] : List (List ℝ)).getD j []).length =
        (([[(0 : ℝ)]] : List (List ℝ)).getD j []).length) ∧
      kl_div [[(0 : ℝ)]] [[(1 : ℝ)]] = kl_spec [[(0 : ℝ)]] [[(1 : ℝ)]] :=
  ⟨rfl, fun j => by cases j <;> rfl,
    c1_kl_closed_form [[(0 : ℝ)]] [[(1 : ℝ)]] rfl (fun j => by cases j <;> rfl)⟩

lemma sigmoid_pos (x : ℝ) : 0 < sigmoid x := by
  rw [sigmoid]
  have h : (0 : ℝ) < 1 + Real.exp (-x) := by positivity
  exact div_pos one_pos h

lemma sigmoid_le_one (x : ℝ) : sigmoid x ≤ 1 := by
  rw [sigmoid]
  have h : (0 : ℝ) < 1 + Real.exp (-x) := by positivity
  rw [div_le_one h]
  have := (Real.exp_pos (-x)).le
  linarith

/-- C2: for every latent input and every parameter value, the decoder
output has one entry per row of its final affine layer (its `input_dim`)
and every entry lies in the closed interval [0, 1], because the final
sigmoid is always applied. -/
theorem c2_decoder_range (p : VAEParams) (z : List ℝ) (inputDim : Nat)
    (hw : p.hid_2img_w.length = inputDim)
    (hb : p.hid_2img_b.length = inputDim) :
    (decode p z).length = inputDim ∧
      ∀ v ∈ decode p z, 0 ≤ v ∧ v ≤ 1 := by
  constructor
  · simp [decode, affine, matVec, hw, hb]
  · intro v hv
    simp only [decode, List.mem_map] at hv
    obtain ⟨x, _, rfl⟩ := hv
    exact ⟨(sigmoid_pos x).le, sigmoid_le_one x⟩

/-- Concrete parameter assignment (all dimensions 1, all entries 0) used
by the witnesses. -/
noncomputable def p0 : VAEParams :=
  ⟨[[0]], [0], [[0]], [0], [[0]], [0], [[0]], [0], [[0]], [0]⟩

/-- C2 witness: the decoder contract evaluated at concrete parameters. -/
theorem c2_decoder_range_witness :
    p0.hid_2img_w.length = 1 ∧ p0.hid_2img_b.length = 1 ∧
      ((decode p0 [0]).length = 1 ∧ ∀ v ∈ decode p0 [0], 0 ≤ v ∧ v ≤ 1) :=
  ⟨rfl, rfl, c2_decoder_range p0 [0] 1 rfl rfl⟩

lemma reparam_getD :
    ∀ (mu sigma eps : List ℝ) (i : Nat), sigma.length = mu.length →
      eps.length = mu.length → i < mu.length →
      (reparam mu sigma eps).getD i 0 =
        mu.getD i 0 + sigma.getD i 0 * eps.getD i 0 := by
  intro mu
  induction mu with
  | nil => intro sigma eps i _ _ hi; simp at hi
  | cons m mt ih =>
      intro sigma eps i hs he hi
      cases sigma with
      | nil => simp at hs
      | cons s st =>
          cases eps with
          | nil => simp at he
          | cons e et =>
              cases i with
              | zero => simp [reparam]
              | succ i =>
                  simp only [reparam, List.zipWith_cons_cons, List.getD_cons_succ]
                  simpa [reparam] using
                    ih st et i (by simpa using hs) (by simpa using he)
                      (by simpa using hi)

/-- C3: the sampler's latent code is the elementwise affine combination
`code[i] = mean[i] + spread[i] * noise[i]`, one entry per latent
dimension; the noise vector is the only stochastic input of the forward
pass (it is an explicit argument of `forward`). -/
theorem c3_reparam_elementwise (mu sigma eps : List ℝ)
    (hs : sigma.length = mu.length) (he : eps.length = mu.length) :
    (reparam mu sigma eps).length = mu.length ∧
      ∀ i, i < mu.length →
        (reparam mu sigma eps).getD i 0 =
          mu.getD i 0 + sigma.getD i 0 * eps.getD i 0 := by
  constructor
  · simp [reparam, List.length_zipWith, hs, he]
  · intro i hi
    exact reparam_getD mu sigma eps i hs he hi

/-- C3 witness: the elementwise law evaluated on concrete vectors. -/
theorem c3_reparam_elementwise_witness :
    ([(2 : ℝ)] : List ℝ).length = ([(1 : ℝ)] : List ℝ).length ∧
      ([(3 : ℝ)] : List ℝ).length = ([(1 : ℝ)] : List ℝ).length ∧
      ((reparam [1] [2] [3]).length = ([(1 : ℝ)] : List ℝ).length ∧
        ∀ i, i < ([(1 : ℝ)] : List ℝ).length →
          (reparam [1] [2] [3]).getD i 0 =
            ([(1 : ℝ)] : List ℝ).getD i 0 +
              ([(2 : ℝ)] : List ℝ).getD i 0 * ([(3 : ℝ)] : List ℝ).getD i 0) :=
  ⟨rfl, rfl, c3_reparam_elementwise [1] [2] [3] rfl rfl⟩

/-- C4: the loss combines the two terms as
`alpha * reconstruction + (1 - alpha) * divergence`; at `alpha = 1` the
divergence term contributes nothing: the loss equals the reconstruction
term, is unchanged by any change of the divergence value, and its
derivative in the divergence argument is exactly 0. -/
theorem c4_alpha_gates_divergence (alpha r k k' : ℝ) :
    compositeLoss alpha r k = alpha * r + (1 - alpha) * k ∧
      compositeLoss 1 r k = r ∧
      compositeLoss 1 r k = compositeLoss 1 r k' ∧
      deriv (fun t => compositeLoss 1 r t) k = 0 := by
  refine ⟨rfl, by simp [compositeLoss], by simp [compositeLoss], ?_⟩
  have hconst : (fun t => compositeLoss 1 r t) = fun _ => r := by
    funext t; simp [compositeLoss]
  rw [hconst]
  exact deriv_const k r

/-- C5: with the noise draw fixed, Encoder→Sampler→Decoder is a pure
deterministic function of the image and the parameters: identical
parameters, identical inputs and identical noise give identical
reconstructed images, means and spreads. -/
theorem c5_deterministic_forward (p q : VAEParams) (x y eps eta : List ℝ)
    (hpq : p = q) (hxy : x = y) (hee : eps = eta) :
    forward p x eps = forward q y eta := by
  subst hpq; subst hxy; subst hee; rfl

/-- C5 witness: determinism evaluated at concrete arguments. -/
theorem c5_deterministic_forward_witness :
    p0 = p0 ∧ ([] : List ℝ) = [] ∧ ([] : List ℝ) = [] ∧
      forward p0 [] [] = forward p0 [] [] :=
  ⟨rfl, rfl, rfl, c5_deterministic_forward p0 p0 [] [] [] [] rfl rfl rfl⟩

lemma rowKLOpt_isSome :
    ∀ (mu sigma : List ℝ), sigma.length = mu.length →
      ((rowKLOpt mu sigma).isSome = true ↔ ∀ s ∈ sigma, s ≠ 0) := by
  intro mu
  induction mu with
  | nil =>
      intro sigma h
      cases sigma with
      | nil => simp [rowKLOpt]
      | cons s ss => simp at h
  | cons m mt ih =>
      intro sigma h
      cases sigma with
      | nil => simp at h
      | cons s st =>
          have h' : st.length = mt.length := by simpa using h
          cases hs : safeLog (s ^ 2) with
          | none =>
              have hs0 : s = 0 := by
                by_contra hne
                have hpos : (0 : ℝ) < s ^ 2 := sq_pos_iff.mpr hne
                simp [safeLog, hpos] at hs
              simp [rowKLOpt, hs, hs0]
              intro a ha
              simp [safeLog] at ha
          | some l =>
              have hpos : (0 : ℝ) < s ^ 2 := by
                by_contra hneg
                simp [safeLog, hneg] at hs
              have hsne : s ≠ 0 := sq_pos_iff.mp hpos
              cases hr : rowKLOpt mt st with
              | none =>
                  have hnall : ¬ ∀ x ∈ st, x ≠ 0 := by
                    intro hall
                    have := (ih st h').mpr hall
                    rw [hr] at this
                    simp at this
                  simp [rowKLOpt, hs, hr, hsne, hnall]
              | some r =>
                  have hall : ∀ x ∈ st, x ≠ 0 :=
                    (ih st h').mp (by simp [hr])
                  simp [rowKLOpt, hs, hr, hsne, hall]
                  exact fun a ha => hall a ha

lemma batchKLOpt_isSome :
    ∀ (mus sigmas : List (List ℝ)),
      List.Forall₂ (fun (mu sigma : List ℝ) => sigma.length = mu.length)
        mus sigmas →
      ((batchKLOpt mus sigmas).isSome = true ↔
        ∀ row ∈ sigmas, ∀ s ∈ row, s ≠ 0) := by
  intro mus sigmas hf
  induction hf with
  | nil => simp [batchKLOpt]
  | @cons mu sigma mt st hlen hrest ih =>
      cases ha : rowKLOpt mu sigma with
      | none =>
          have hnall : ¬ ∀ x ∈ sigma, x ≠ 0 := by
            intro hall
            have := (rowKLOpt_isSome mu sigma hlen).mpr hall
            rw [ha] at this
            simp at this
          simp [batchKLOpt, ha, hnall]
      | some a =>
          have hall : ∀ x ∈ sigma, x ≠ 0 :=
            (rowKLOpt_isSome mu sigma hlen).mp (by simp [ha])
          cases hb : batchKLOpt mt st with
          | none =>
              have hnrest : ¬ ∀ row ∈ st, ∀ s ∈ row, s ≠ 0 := by
                intro hrows
                have := ih.mpr hrows
                rw [hb] at this
                simp at this
              simp [batchKLOpt, ha, hb, hall, hnrest]
          | some b =>
              have hrows : ∀ row ∈ st, ∀ s ∈ row, s ≠ 0 :=
                ih.mp (by simp [hb])
              simp [batchKLOpt, ha, hb, hall, hrows]
              exact ⟨fun x hx => hall x hx, fun row hr s hs => hrows row hr s hs⟩

/-- C6 (amended): on a batch of matching shapes the divergence term (and
hence the batch loss) is defined iff every spread entry is nonzero:
`spread = 0` makes `log(spread^2)` undefined, but a strictly negative
spread is harmless because its square is positive. -/
theorem c6_domain (mus sigmas : List (List ℝ))
    (hshape : List.Forall₂ (fun (mu sigma : List ℝ) =>
      sigma.length = mu.length) mus sigmas) :
    (klDivOpt mus sigmas).isSome = true ↔
      ∀ row ∈ sigmas, ∀ s ∈ row, s ≠ 0 := by
  rw [klDivOpt]
  rw [show ((batchKLOpt mus sigmas).map (fun t => -t)).isSome =
    (batchKLOpt mus sigmas).isSome from by
      cases batchKLOpt mus sigmas <;> rfl]
  exact batchKLOpt_isSome mus sigmas hshape

/-- C6 witness: the definedness criterion evaluated on a concrete batch. -/
theorem c6_domain_witness :
    List.Forall₂ (fun (mu sigma : List ℝ) => sigma.length = mu.length)
        [[(0 : ℝ)]] [[(2 : ℝ)]] ∧
      ((klDivOpt [[(0 : ℝ)]] [[(2 : ℝ)]]).isSome = true ↔
        ∀ row ∈ [[(2 : ℝ)]], ∀ s ∈ row, s ≠ 0) :=
  ⟨List.Forall₂.cons rfl List.Forall₂.nil,
    c6_domain [[(0 : ℝ)]] [[(2 : ℝ)]] (List.Forall₂.cons rfl List.Forall₂.nil)⟩

/-- C6 counterexample: a strictly negative spread entry (`-1`) does not
make the divergence term undefined — `log((-1)^2) = log 1` is fine — so
the loss is not undefined at every nonpositive spread, only at zero. -/
theorem c6_counterexample :
    (klDivOpt [[(0 : ℝ)]] [[(-1 : ℝ)]]).isSome = true ∧ (-1 : ℝ) < 0 := by
  constructor
  · have hpos : (0 : ℝ) < (-1 : ℝ) ^ 2 := by norm_num
    simp [klDivOpt, batchKLOpt, rowKLOpt, safeLog, hpos]
  · norm_num

end VAE
